import Mathlib

/-!
Verification development for the plex-mcp-account-finder repository.

The TypeScript sources are shallowly embedded as Lean definitions:
`cache.ts` (TTLCache) becomes association-list operations parameterized by
the current time, `plexClient.ts` (dedup, connection probing, PIN flow)
and `plexManager.ts` (account fan-out, caching, search) become pure
functions over explicit state, with the remote HTTP service modelled as
oracles (function parameters) and remote-call counting made explicit.
-/

namespace Plex

/-! ### Expiring cache (src `cache.ts`, `TTLCache`)

The JS `Map` backing store is modelled as an association list with
`Map` lookup/overwrite/delete semantics; `Date.now()` becomes an explicit
`now : Nat` argument. -/

structure CEntry (V : Type) where
  value : V
  expiresAt : Nat
  deriving DecidableEq, Repr

/-- `Map.get`: first binding for the key, if any. -/
def cacheLookup {V : Type} (c : List (String × CEntry V)) (k : String) : Option (CEntry V) :=
  (c.find? (fun p => p.1 == k)).map (fun p => p.2)

/-- `Map.delete`: remove every binding for the key. -/
def cacheDelete {V : Type} (c : List (String × CEntry V)) (k : String) :
    List (String × CEntry V) :=
  c.filter (fun p => !(p.1 == k))

/-- `TTLCache.get`: a present entry whose `expiresAt` is strictly in the past
(`Date.now() > entry.expiresAt`) is deleted and reported absent; otherwise the
stored value is returned and the store is untouched. -/
def cacheGet {V : Type} (c : List (String × CEntry V)) (now : Nat) (k : String) :
    Option V × List (String × CEntry V) :=
  match cacheLookup c k with
  | none => (none, c)
  | some e => if e.expiresAt < now then (none, cacheDelete c k) else (some e.value, c)

/-- `Map.set` with a precomputed absolute expiry (`TTLCache.set` passes
`Date.now() + ttlMs`). Overwriting semantics: at most the bindings of `k`
change. -/
def cacheSet {V : Type} (c : List (String × CEntry V)) (k : String) (v : V)
    (expiresAt : Nat) : List (String × CEntry V) :=
  (k, ⟨v, expiresAt⟩) :: cacheDelete c k

/-! ### Data model (src `types.ts`) -/

structure ConfigAccount where
  label : String
  token : String
  clientIdentifier : String
  deriving DecidableEq, Repr

structure PlexConnection where
  protocol : String
  address : String
  port : Nat
  uri : String
  deriving DecidableEq, Repr

structure PlexResource where
  name : String
  provides : String
  machineIdentifier : String
  owned : Bool
  product : String
  version : String
  platform : String
  uri : String
  connections : List PlexConnection
  deriving DecidableEq, Repr

structure PlexServer where
  name : String
  friendlyName : String
  machineIdentifier : String
  host : String
  port : Nat
  scheme : String
  uri : String
  product : String
  version : String
  platform : String
  owned : Bool
  accountLabel : String
  deriving DecidableEq, Repr

structure PlexUserAccess where
  id : Option Int
  uuid : Option String
  username : Option String
  title : Option String
  email : Option String
  restricted : Option Bool
  home : Option Bool
  guest : Option Bool
  canInvite : Option Bool
  serverIdentifier : String
  serverName : String
  accountLabel : String
  deriving DecidableEq, Repr

/-! ### User-access dedup (src `plexClient.ts`, `fetchServerUsers` lines 270-282)

`null`/`undefined` become `none`; the `??` chain skips only `none`, while the
truthiness test `user.username ?` additionally skips the empty string. -/

/-- The `${user.serverIdentifier}-${user.id ?? 'unknown'}` fallback key. -/
def userIdKey (u : PlexUserAccess) : String :=
  u.serverIdentifier ++ "-" ++ (match u.id with | some n => toString n | none => "unknown")

/-- `keySource` of the dedup loop: `email ?? uuid ?? (username ? sid-username : sid-(id ?? 'unknown'))`. -/
def userKeySource (u : PlexUserAccess) : String :=
  match u.email with
  | some e => e
  | none =>
    match u.uuid with
    | some uu => uu
    | none =>
      match u.username with
      | some un => if un = "" then userIdKey u else u.serverIdentifier ++ "-" ++ un
      | none => userIdKey u

/-- `String.prototype.toLowerCase` (ASCII per-character lowering, the behavior
on all inputs this code produces; written over the character list so it
evaluates inside the kernel). -/
def jsToLower (s : String) : String := ⟨s.data.map Char.toLower⟩

/-- `keySource.toLowerCase()`. -/
def userKey (u : PlexUserAccess) : String := jsToLower (userKeySource u)

/-- The `deduped` map loop: first record per key wins, later ones are dropped;
`Array.from(deduped.values())` preserves insertion order. -/
def dedupUsersGo : List PlexUserAccess → List String → List PlexUserAccess
  | [], _ => []
  | u :: rest, seenKeys =>
    if userKey u ∈ seenKeys then dedupUsersGo rest seenKeys
    else u :: dedupUsersGo rest (userKey u :: seenKeys)

def dedupUsers (results : List PlexUserAccess) : List PlexUserAccess :=
  dedupUsersGo results []

/-- `fetchServerUsers` pushes the local-account listing first, then the
shared-access listing, then dedups the concatenation. -/
def mergeServerUsers (localUsers sharedUsers : List PlexUserAccess) : List PlexUserAccess :=
  dedupUsers (localUsers ++ sharedUsers)

/-! ### Claim C1: per-server user merge dedups by canonical identity key -/

def sampleUserA : PlexUserAccess :=
  { id := none, uuid := none, username := some "u1", title := none, email := some "a@x.com",
    restricted := none, home := none, guest := none, canInvite := none,
    serverIdentifier := "srv1", serverName := "Server One", accountLabel := "primary" }

def sampleUserB : PlexUserAccess :=
  { sampleUserA with username := some "u2", email := some "A@X.COM" }

/-! ### Claim C9: the all-null-identity fallback key -/

def anonymousUser (n : Option Int) : PlexUserAccess :=
  { id := n, uuid := none, username := none, title := none, email := none,
    restricted := none, home := none, guest := none, canInvite := none,
    serverIdentifier := "srv1", serverName := "Server One", accountLabel := "primary" }

/-! ### Server discovery (src `plexClient.ts` `connectToServer`, `plexManager.ts` `getServers`)

The remote directory service is an oracle: `getResources` yields the parsed
resource list for an account's token, and `probe` yields the
`data.MediaContainer` answer (with its optional `friendlyName`) for a probed
connection URI, or `none` for a failed / non-MediaContainer response. -/

structure ProbeOk where
  friendlyName : Option String
  deriving DecidableEq, Repr

structure Adapter where
  getResources : ConfigAccount → List PlexResource
  probe : ConfigAccount → String → Option ProbeOk

/-- The `for (const connection of resource.connections)` loop of
`connectToServer`: skip falsy URIs, return a server from the first connection
whose probe answers with a `MediaContainer`, else `null`.
`friendlyName || resource.name` treats the empty string as falsy. -/
def connectGo (probe : String → Option ProbeOk) (resource : PlexResource)
    (accountLabel : String) : List PlexConnection → Option PlexServer
  | [] => none
  | conn :: rest =>
    if conn.uri = "" then connectGo probe resource accountLabel rest
    else
      match probe conn.uri with
      | some mc =>
        some { name := resource.name,
               friendlyName :=
                 match mc.friendlyName with
                 | some fn => if fn = "" then resource.name else fn
                 | none => resource.name,
               machineIdentifier := resource.machineIdentifier,
               host := conn.address,
               port := conn.port,
               scheme := conn.protocol,
               uri := conn.uri,
               product := resource.product,
               version := resource.version,
               platform := resource.platform,
               owned := resource.owned,
               accountLabel := accountLabel }
      | none => connectGo probe resource accountLabel rest

def connectToServer (probe : String → Option ProbeOk) (resource : PlexResource)
    (accountLabel : String) : Option PlexServer :=
  connectGo probe resource accountLabel resource.connections

/-- The cache-miss body of `getServers`: `getResources` then one
`connectToServer` per resource, keeping the successes. -/
def fetchAccountServers (ad : Adapter) (a : ConfigAccount) : List PlexServer :=
  (ad.getResources a).filterMap (fun r => connectToServer (ad.probe a) r a.label)

def serversCacheKey (label : String) : String := "servers:" ++ label

def serverDedupKey (machineIdentifier label : String) : String :=
  machineIdentifier ++ ":" ++ label

/-- The `for (const server of servers)` dedup loop of `getServers`:
push a server unless its `machineIdentifier:accountLabel` key was seen. -/
def pushServers (label : String) : List PlexServer → List String → List PlexServer →
    List String × List PlexServer
  | [], seenKeys, agg => (seenKeys, agg)
  | s :: rest, seenKeys, agg =>
    let k := serverDedupKey s.machineIdentifier label
    if k ∈ seenKeys then pushServers label rest seenKeys agg
    else pushServers label rest (k :: seenKeys) (agg ++ [s])

abbrev ServerCache := List (String × CEntry (List PlexServer))

structure ServersResult where
  servers : List PlexServer
  cache : ServerCache
  adapterCalls : Nat
  deriving DecidableEq, Repr

/-- One account's iteration of `getServers`: read the server-list cache tier;
on miss (`!servers`) or forced refresh, fetch and write back. The returned
count is the number of Directory Client Adapter calls made: one `getResources`
plus one `connectToServer` per resource on the fetch path, zero on a hit. -/
def getServersStep (ad : Adapter) (ttl now : Nat) (refresh : Bool) (a : ConfigAccount)
    (cache : ServerCache) : List PlexServer × ServerCache × Nat :=
  let g := cacheGet cache now (serversCacheKey a.label)
  match g.1 with
  | some v =>
    if refresh then
      let fetched := fetchAccountServers ad a
      (fetched, cacheSet g.2 (serversCacheKey a.label) fetched (now + ttl),
       1 + (ad.getResources a).length)
    else (v, g.2, 0)
  | none =>
    let fetched := fetchAccountServers ad a
    (fetched, cacheSet g.2 (serversCacheKey a.label) fetched (now + ttl),
     1 + (ad.getResources a).length)

/-- The account loop of `getServers`, with the `seen` set and aggregated list
threaded through. -/
def getServersGo (ad : Adapter) (ttl now : Nat) (refresh : Bool) :
    List ConfigAccount → ServerCache → List String → List PlexServer → ServersResult
  | [], cache, _, agg => ⟨agg, cache, 0⟩
  | a :: rest, cache, seenKeys, agg =>
    let st := getServersStep ad ttl now refresh a cache
    let pushed := pushServers a.label st.1 seenKeys agg
    let r := getServersGo ad ttl now refresh rest st.2.1 pushed.1 pushed.2
    ⟨r.servers, r.cache, st.2.2 + r.adapterCalls⟩

/-- `PlexAccountManager.getServers(refresh)`. -/
def getServers (ad : Adapter) (ttl now : Nat) (accounts : List ConfigAccount)
    (refresh : Bool) (cache : ServerCache) : ServersResult :=
  getServersGo ad ttl now refresh accounts cache [] []

/-! Concrete scenario material shared by several witnesses. -/

def connectionA : PlexConnection :=
  { protocol := "https", address := "10.0.0.1", port := 32400, uri := "https://10.0.0.1:32400" }

def connectionB : PlexConnection :=
  { protocol := "https", address := "10.0.0.2", port := 32400, uri := "https://10.0.0.2:32400" }

def resourceM1 : PlexResource :=
  { name := "res1", provides := "server", machineIdentifier := "M1", owned := true,
    product := "Plex Media Server", version := "1.0", platform := "Linux",
    uri := "", connections := [connectionA] }

def resourceM1b : PlexResource :=
  { resourceM1 with name := "res1-alt", connections := [connectionB] }

def sampleAdapter : Adapter :=
  { getResources := fun _ => [resourceM1],
    probe := fun _ _ => some { friendlyName := some "Home Server" } }

/-- An adapter whose resource listing advertises the same machine twice. -/
def dupAdapter : Adapter :=
  { getResources := fun _ => [resourceM1, resourceM1b],
    probe := fun _ _ => some { friendlyName := some "Home Server" } }

def accountL1 : ConfigAccount := { label := "L1", token := "tok1", clientIdentifier := "cid1" }

def accountL2 : ConfigAccount := { label := "L2", token := "tok2", clientIdentifier := "cid2" }

/-! Well-formedness of the server-list cache tier: an entry stored under
`servers:<label>` only holds servers tagged with that account label. Every
store reachable by the manager satisfies this (the empty initial store
trivially, and `getServers` only writes freshly connected lists). -/

def ServerCacheWF (c : ServerCache) : Prop :=
  ∀ label e, cacheLookup c (serversCacheKey label) = some e →
    ∀ s ∈ e.value, s.accountLabel = label

/-- The per-server dedup key as carried by an aggregated server. -/
def aggKey (s : PlexServer) : String :=
  serverDedupKey s.machineIdentifier s.accountLabel

/-! ### User aggregation (src `plexManager.ts` `getUsersAcrossServers`,
`findTokenForAccount`, `findClientIdentifier`)

`fetchServerUsers` (whose internals are embedded separately as
`mergeServerUsers`) appears here as an oracle from a server, token and client
identifier to the merged user list. The `throw` of the account lookups is an
`Except.error`. -/

abbrev UserCache := List (String × CEntry (List PlexUserAccess))

def findTokenForAccount (accounts : List ConfigAccount) (label : String) : Option String :=
  (accounts.find? (fun acct => acct.label == label)).map (fun acct => acct.token)

def findClientIdentifier (accounts : List ConfigAccount) (label : String) : Option String :=
  (accounts.find? (fun acct => acct.label == label)).map (fun acct => acct.clientIdentifier)

def usersCacheKey (s : PlexServer) : String :=
  "users:" ++ s.machineIdentifier ++ ":" ++ s.accountLabel

/-- The server loop of `getUsersAcrossServers`: read the user-list tier; on a
miss (or forced refresh) resolve the server's account token and client
identifier — throwing `No account found for label` when the label is not
configured — fetch, write back, and concatenate. -/
def getUsersGo (fetchUsers : PlexServer → String → String → List PlexUserAccess)
    (ttl now : Nat) (accounts : List ConfigAccount) (refresh : Bool) :
    List PlexServer → UserCache → List PlexUserAccess →
    Except String (List PlexUserAccess × UserCache)
  | [], ucache, users => .ok (users, ucache)
  | s :: rest, ucache, users =>
    let g := cacheGet ucache now (usersCacheKey s)
    match g.1 with
    | some cached =>
      if refresh then
        match findTokenForAccount accounts s.accountLabel,
            findClientIdentifier accounts s.accountLabel with
        | some token, some cid =>
          getUsersGo fetchUsers ttl now accounts refresh rest
            (cacheSet g.2 (usersCacheKey s) (fetchUsers s token cid) (now + ttl))
            (users ++ fetchUsers s token cid)
        | _, _ => .error ("No account found for label " ++ s.accountLabel)
      else getUsersGo fetchUsers ttl now accounts refresh rest g.2 (users ++ cached)
    | none =>
      match findTokenForAccount accounts s.accountLabel,
          findClientIdentifier accounts s.accountLabel with
      | some token, some cid =>
        getUsersGo fetchUsers ttl now accounts refresh rest
          (cacheSet g.2 (usersCacheKey s) (fetchUsers s token cid) (now + ttl))
          (users ++ fetchUsers s token cid)
      | _, _ => .error ("No account found for label " ++ s.accountLabel)

/-- `PlexAccountManager.getUsersAcrossServers(refresh)`. -/
def getUsersAcrossServers (ad : Adapter)
    (fetchUsers : PlexServer → String → String → List PlexUserAccess)
    (ttl now : Nat) (accounts : List ConfigAccount) (refresh : Bool)
    (scache : ServerCache) (ucache : UserCache) :
    Except String (List PlexUserAccess × UserCache) :=
  getUsersGo fetchUsers ttl now accounts refresh
    (getServers ad ttl now accounts refresh scache).servers ucache []

/-! ### Account validation (src `plexClient.ts` `validateToken`,
`plexManager.ts` `validateAccounts`)

The `/users/account.json` response is an oracle per account: either a thrown
request error (`Except.error`, caught and turned into `null`), a response with
no `user` object, or a user node. -/

structure UserNode where
  username : Option String
  title : Option String
  email : Option String
  deriving DecidableEq, Repr

structure AccountInfo where
  username : Option String
  email : Option String
  deriving DecidableEq, Repr

/-- JS `a || b` on optional strings: the empty string is falsy. -/
def jsOr (a b : Option String) : Option String :=
  match a with
  | some s => if s = "" then b else some s
  | none => b

/-- `validateToken`: a request error or an absent `user` yields `null`;
otherwise `{username: user.username || user.title, email: user.email}`. -/
def validateToken (resp : Except String (Option UserNode)) : Option AccountInfo :=
  match resp with
  | .error _ => none
  | .ok none => none
  | .ok (some u) => some { username := jsOr u.username u.title, email := u.email }

structure AccountValidationResult where
  label : String
  valid : Bool
  username : Option String
  email : Option String
  deriving DecidableEq, Repr

/-- The account loop of `validateAccounts`, pushing one result per account. -/
def validateAccounts (accounts : List ConfigAccount)
    (resp : ConfigAccount → Except String (Option UserNode)) :
    List AccountValidationResult :=
  match accounts with
  | [] => []
  | a :: rest =>
    (match validateToken (resp a) with
     | some info =>
       { label := a.label, valid := true, username := info.username, email := info.email }
     | none => { label := a.label, valid := false, username := none, email := none }) ::
    validateAccounts rest resp

/-! ### PIN flow (src `plexClient.ts` `createAuthPin` / `checkAuthPin` /
`buildAuthUrl`, `plexManager.ts` `generateAuthPin` / `checkAuthPinStatus`)

The remote `POST /api/v2/pins` and `GET /api/v2/pins/{id}` are oracles
returning either a thrown error or the parsed `pin` payload; `uuidv4()` is the
explicit `generatedIdentifier` argument. Each embedding returns the count of
remote calls it performed. -/

structure PinResp where
  id : Int
  code : String
  expiresAt : String
  authToken : Option String
  deriving DecidableEq, Repr

structure PlexPin where
  id : Int
  code : String
  clientIdentifier : String
  expiresAt : String
  authToken : Option String
  deriving DecidableEq, Repr

/-- `createAuthPin`: one remote creation call; a failure is logged and
rethrown unchanged. -/
def createAuthPin (clientIdentifier : Option String) (generatedIdentifier : String)
    (remoteCreatePin : String → Except String PinResp) : Except String PlexPin × Nat :=
  let identifier := clientIdentifier.getD generatedIdentifier
  match remoteCreatePin identifier with
  | .error e => (.error e, 1)
  | .ok pin =>
    (.ok { id := pin.id, code := pin.code, clientIdentifier := identifier,
           expiresAt := pin.expiresAt, authToken := pin.authToken }, 1)

/-- `checkAuthPin`: one remote poll call; a failure is logged and rethrown
unchanged. -/
def checkAuthPin (id : Int) (clientIdentifier : String)
    (remotePollPin : Int → String → Except String PinResp) :
    Except String PlexPin × Nat :=
  match remotePollPin id clientIdentifier with
  | .error e => (.error e, 1)
  | .ok pin =>
    (.ok { id := pin.id, code := pin.code, clientIdentifier := clientIdentifier,
           expiresAt := pin.expiresAt, authToken := pin.authToken }, 1)

def PLEX_PRODUCT : String := "Plex MCP Account Finder"

def PLEX_VERSION : String := "0.1.0"

def PLEX_DEVICE : String := "MCP"

def formHexDigit (n : Nat) : Char :=
  if n < 10 then Char.ofNat (48 + n) else Char.ofNat (55 + n)

def utf8Bytes (c : Char) : List Nat :=
  let n := c.toNat
  if n < 128 then [n]
  else if n < 2048 then [192 + n / 64, 128 + n % 64]
  else if n < 65536 then [224 + n / 4096, 128 + (n / 64) % 64, 128 + n % 64]
  else [240 + n / 262144, 128 + (n / 4096) % 64, 128 + (n / 64) % 64, 128 + n % 64]

/-- One character of `URLSearchParams.toString()`
(`application/x-www-form-urlencoded`): alphanumerics and `*-._` pass through,
space becomes `+`, everything else is percent-encoded per UTF-8 byte. -/
def formEncodeChar (c : Char) : String :=
  if c.isAlphanum ∨ c = '*' ∨ c = '-' ∨ c = '.' ∨ c = '_' then String.singleton c
  else if c = ' ' then "+"
  else String.join ((utf8Bytes c).map
    (fun b => String.mk ['%', formHexDigit (b / 16), formHexDigit (b % 16)]))

def formEncode (s : String) : String := String.join (s.data.map formEncodeChar)

def formEncodeParams (params : List (String × String)) : String :=
  String.intercalate "&" (params.map (fun p => formEncode p.1 ++ "=" ++ formEncode p.2))

/-- `buildAuthUrl`: the fixed base URL with the PIN's parameters serialized
into the fragment, in source order. -/
def buildAuthUrl (pin : PlexPin) (productName : String) : String :=
  "https://app.plex.tv/auth#" ++ formEncodeParams
    [("clientID", pin.clientIdentifier),
     ("code", pin.code),
     ("context[device][product]", productName),
     ("context[device][environment]", "bundled"),
     ("context[device][platform]", "Web"),
     ("context[device][device]", PLEX_DEVICE),
     ("context[device][model]", "MCP"),
     ("context[device][version]", PLEX_VERSION),
     ("context[client][product]", productName),
     ("context[client][version]", PLEX_VERSION),
     ("context[client][device]", PLEX_DEVICE),
     ("context[client][platform]", "Web"),
     ("context[client][model]", "MCP")]

structure AuthPinResult where
  pin : PlexPin
  authorizationUrl : String
  deriving DecidableEq, Repr

/-- `PlexAccountManager.generateAuthPin`: pass-through to `createAuthPin` plus
URL composition; no extra remote call, no caching. -/
def generateAuthPin (clientIdentifier : Option String) (generatedIdentifier : String)
    (remoteCreatePin : String → Except String PinResp) :
    Except String AuthPinResult × Nat :=
  let r := createAuthPin clientIdentifier generatedIdentifier remoteCreatePin
  match r.1 with
  | .error e => (.error e, r.2)
  | .ok pin => (.ok { pin := pin, authorizationUrl := buildAuthUrl pin PLEX_PRODUCT }, r.2)

/-- `PlexAccountManager.checkAuthPinStatus`: direct pass-through. -/
def checkAuthPinStatus (id : Int) (clientIdentifier : String)
    (remotePollPin : Int → String → Except String PinResp) :
    Except String PlexPin × Nat :=
  checkAuthPin id clientIdentifier remotePollPin

/-! ### Fuzzy search (src `plexManager.ts` `searchUsers`)

`searchUsers` itself (trim, the two empty-result early returns, the
`maxResults ?? 25` limit, and the `totalMatched`/`totalSearched` bookkeeping)
is embedded from the source. The index it delegates to is the external
`fuse.js` library, which is not part of this repository. -/

/-- `String.prototype.trim` (strip leading/trailing whitespace; modelled over
the character list so it evaluates in the kernel). -/
def jsTrim (s : String) : String :=
  ⟨((s.data.dropWhile Char.isWhitespace).reverse.dropWhile Char.isWhitespace).reverse⟩

/-- One row update of the Levenshtein dynamic program. -/
def levRowGo (c : Char) : List Char → Nat → Nat → List Nat → List Nat
  | [], _, _, _ => []
  | b :: bs, diag, left, prevRest =>
    match prevRest with
    | [] => []
    | up :: rest =>
      let cur := min (left + 1) (min (up + 1) (diag + (if c = b then 0 else 1)))
      cur :: levRowGo c bs up cur rest

def levRow (c : Char) (bs : List Char) (prev : List Nat) : List Nat :=
  match prev with
  | [] => []
  | p0 :: rest => (p0 + 1) :: levRowGo c bs p0 (p0 + 1) rest

/-- Levenshtein edit distance (row-based dynamic program). -/
def levenshtein (a b : String) : Nat :=
  ((a.data.foldl (fun row c => levRow c b.data row)
    (List.range (b.data.length + 1))).getLastD 0)

/-- Rational multiplication written through the `mkRat` smart constructor (so
that it evaluates inside the kernel); equal to `*` by `ratMul_eq`. -/
def ratMul (a b : ℚ) : ℚ := mkRat (a.num * b.num) (a.den * b.den)

/-- `1 - w / 2` written through `mkRat`; equal to it by `ratOneSubHalf_eq`. -/
def ratOneSubHalf (w : ℚ) : ℚ := mkRat (2 * w.den - w.num) (2 * w.den)

/-- Normalized edit-distance score of a query against one field value,
clamped into `[0,1]` (`mkRat _ 0 = 0` covers two empty strings). -/
def fieldRatio (query field : String) : ℚ :=
  mkRat (min (levenshtein query field) (max query.length field.length))
    (max query.length field.length)

structure MatchDetail where
  key : String
  value : String
  indices : List (Nat × Nat)
  deriving DecidableEq, Repr

/-- The weighted keys handed to the index: `email` 0.5, `username` 0.3,
`title` 0.2 (source option list order). -/
def fuseFieldValues (u : PlexUserAccess) : List (String × Option String × ℚ) :=
  [("email", u.email, mkRat 1 2), ("username", u.username, mkRat 3 10),
   ("title", u.title, mkRat 1 5)]

/-- The `threshold: 0.4` option. -/
def fuseThreshold : ℚ := mkRat 2 5

/-- Modelled from the spec: the fuse.js fuzzy index (external library, absent
from src) as "token-based approximate string matching" with "a similarity
threshold such that matches requiring materially more than ~40% edit distance
relative to field length are excluded", location-independent
(`ignoreLocation: true`), over the three weighted fields. A present field
whose normalized edit distance is within the 0.4 threshold contributes a match
detail and a weighted score in `[0,1]` (better weight, lower score); matched
character indices are not further specified and are modelled as empty. -/
def fuseCandidates (query : String) (u : PlexUserAccess) : List (MatchDetail × ℚ) :=
  (fuseFieldValues u).filterMap (fun kfw =>
    match kfw.2.1 with
    | none => none
    | some fieldValue =>
      if fieldRatio query fieldValue ≤ fuseThreshold then
        some ({ key := kfw.1, value := fieldValue, indices := [] },
          ratMul (fieldRatio query fieldValue) (ratOneSubHalf kfw.2.2))
      else none)

/-- Modelled from the spec: a record matches when some field matches; its
score is the best (lowest) weighted field score, and `includeMatches` reports
the per-field details. -/
def fuseScoreUser (query : String) (u : PlexUserAccess) :
    Option (ℚ × List MatchDetail) :=
  match fuseCandidates query u with
  | [] => none
  | c :: cs =>
    some (cs.foldl (fun m x => min m x.2) c.2, (c :: cs).map (fun x => x.1))

structure FuseResult where
  item : PlexUserAccess
  score : ℚ
  details : List MatchDetail
  deriving DecidableEq, Repr

instance fuseResultLE :
    DecidableRel (fun a b : FuseResult => a.score ≤ b.score) :=
  fun a b => inferInstanceAs (Decidable (a.score ≤ b.score))

/-- Modelled from the spec: `fuse.search(trimmed, {limit})` returns the
matching records ascending-sorted by score (lower is better), truncated to the
requested limit. -/
def fuseSearch (users : List PlexUserAccess) (query : String) (limit : Nat) :
    List FuseResult :=
  ((users.filterMap (fun u => (fuseScoreUser query u).map
    (fun sd => FuseResult.mk u sd.1 sd.2))).insertionSort
    (fun a b => a.score ≤ b.score)).take limit

structure SearchMatch where
  score : ℚ
  user : PlexUserAccess
  matchDetails : List MatchDetail
  deriving DecidableEq, Repr

structure SearchResult where
  «matches» : List SearchMatch
  totalMatched : Nat
  totalSearched : Nat
  deriving DecidableEq, Repr

def emptySearchResult : SearchResult :=
  { «matches» := [], totalMatched := 0, totalSearched := 0 }

/-- `PlexAccountManager.searchUsers(query, {maxResults, refresh})`, with
`getUsersAcrossServers` abstracted as an oracle that also reports how many
upstream calls it made. A blank trimmed query returns the empty result without
consulting the oracle at all (the result is the same for every oracle and the
call count is 0). -/
def searchUsers (getUsers : Bool → List PlexUserAccess × Nat) (query : String)
    (maxResults : Option Nat) (refresh : Bool) : SearchResult × Nat :=
  if jsTrim query = "" then (emptySearchResult, 0)
  else
    let gu := getUsers refresh
    if gu.1.length = 0 then (emptySearchResult, gu.2)
    else
      let results := fuseSearch gu.1 (jsTrim query) (maxResults.getD 25)
      ({ «matches» := results.map (fun r =>
           { score := r.score, user := r.item, matchDetails := r.details }),
         totalMatched := results.length,
         totalSearched := gu.1.length }, gu.2)

/-! ### Claim C6: ranked, bounded, truncated search results -/

def aliceUser (i : Nat) : PlexUserAccess :=
  { id := some (Int.ofNat i), uuid := none, username := none, title := none,
    email := some "alice", restricted := none, home := none, guest := none,
    canInvite := none, serverIdentifier := "srv1", serverName := "Server One",
    accountLabel := "primary" }

/-- Ten users whose email matches the query `alice` equally well. -/
def tenAliceGetUsers : Bool → List PlexUserAccess × Nat :=
  fun _ => ((List.range 10).map aliceUser, 0)

/-! ### Theorems -/

/-! Dedup lemmas. -/

theorem dedupUsersGo_mem {l : List PlexUserAccess} {seenKeys : List String}
    {u : PlexUserAccess} (h : u ∈ dedupUsersGo l seenKeys) :
    u ∈ l ∧ userKey u ∉ seenKeys := by
  induction l generalizing seenKeys with
  | nil => simp [dedupUsersGo] at h
  | cons x rest ih =>
    by_cases hx : userKey x ∈ seenKeys
    · simp only [dedupUsersGo, if_pos hx] at h
      rcases ih h with ⟨hmem, hkey⟩
      exact ⟨List.mem_cons_of_mem _ hmem, hkey⟩
    · simp only [dedupUsersGo, if_neg hx] at h
      rcases List.mem_cons.mp h with h | h
      · exact ⟨by simp [h], by simpa [h] using hx⟩
      · rcases ih h with ⟨hmem, hkey⟩
        refine ⟨List.mem_cons_of_mem _ hmem, fun hc => hkey ?_⟩
        exact List.mem_cons_of_mem _ hc

theorem dedupUsersGo_find {l : List PlexUserAccess} {seenKeys : List String}
    {u : PlexUserAccess} (h : u ∈ dedupUsersGo l seenKeys) :
    l.find? (fun v => userKey v == userKey u) = some u := by
  induction l generalizing seenKeys with
  | nil => simp [dedupUsersGo] at h
  | cons x rest ih =>
    by_cases hx : userKey x ∈ seenKeys
    · simp only [dedupUsersGo, if_pos hx] at h
      have hu := dedupUsersGo_mem h
      have hne : userKey x ≠ userKey u := fun hc => hu.2 (hc ▸ hx)
      rw [List.find?_cons_of_neg _ (by simpa using hne)]
      exact ih h
    · simp only [dedupUsersGo, if_neg hx] at h
      rcases List.mem_cons.mp h with h | h
      · subst h
        exact List.find?_cons_of_pos _ (by simp)
      · have hu := dedupUsersGo_mem h
        have hne : userKey x ≠ userKey u := by
          intro hc
          exact hu.2 (by simp [hc])
        rw [List.find?_cons_of_neg _ (by simpa using hne)]
        exact ih h

theorem dedupUsersGo_pairwise (l : List PlexUserAccess) (seenKeys : List String) :
    (dedupUsersGo l seenKeys).Pairwise (fun u v => userKey u ≠ userKey v) := by
  induction l generalizing seenKeys with
  | nil => simp [dedupUsersGo]
  | cons x rest ih =>
    by_cases hx : userKey x ∈ seenKeys
    · simpa only [dedupUsersGo, if_pos hx] using ih seenKeys
    · simp only [dedupUsersGo, if_neg hx]
      refine List.Pairwise.cons ?_ (ih (userKey x :: seenKeys))
      intro v hv hc
      have := (dedupUsersGo_mem hv).2
      exact this (by simp [hc])

theorem dedupUsersGo_covers {l : List PlexUserAccess} {seenKeys : List String}
    {u : PlexUserAccess} (hmem : u ∈ l) (hkey : userKey u ∉ seenKeys) :
    ∃ v ∈ dedupUsersGo l seenKeys, userKey v = userKey u := by
  induction l generalizing seenKeys with
  | nil => simp at hmem
  | cons x rest ih =>
    by_cases hx : userKey x ∈ seenKeys
    · simp only [dedupUsersGo, if_pos hx]
      rcases List.mem_cons.mp hmem with h | h
      · exact absurd (show userKey x ∈ seenKeys from h ▸ hx) (h ▸ hkey)
      · exact ih h hkey
    · simp only [dedupUsersGo, if_neg hx]
      by_cases hxu : userKey x = userKey u
      · exact ⟨x, by simp, hxu⟩
      · rcases List.mem_cons.mp hmem with h | h
        · exact absurd (congrArg userKey h.symm) hxu
        · have hkey2 : userKey u ∉ userKey x :: seenKeys := by
            simp only [List.mem_cons]
            push_neg
            exact ⟨fun hc => hxu hc.symm, hkey⟩
          rcases ih h hkey2 with ⟨v, hv, hvk⟩
          exact ⟨v, List.mem_cons_of_mem _ hv, hvk⟩

/-! Cache primitive lemmas. -/

theorem cacheLookup_delete_self {V : Type} (c : List (String × CEntry V)) (k : String) :
    cacheLookup (cacheDelete c k) k = none := by
  induction c with
  | nil => rfl
  | cons p rest ih =>
    show cacheLookup (List.filter _ (p :: rest)) k = none
    rw [List.filter_cons]
    by_cases hp : p.1 = k
    · rw [if_neg (by simp [hp])]
      exact ih
    · rw [if_pos (by simp [hp])]
      show (List.find? _ (p :: _)).map _ = none
      rw [List.find?_cons_of_neg _ (by simpa using hp)]
      exact ih

theorem cacheLookup_delete_ne {V : Type} (c : List (String × CEntry V)) {k k2 : String}
    (h : k2 ≠ k) : cacheLookup (cacheDelete c k) k2 = cacheLookup c k2 := by
  induction c with
  | nil => rfl
  | cons p rest ih =>
    show cacheLookup (List.filter _ (p :: rest)) k2 = cacheLookup (p :: rest) k2
    rw [List.filter_cons]
    by_cases hp : p.1 = k
    · rw [if_neg (by simp [hp])]
      have hpk2 : ¬ p.1 = k2 := fun hc => h (hc ▸ hp ▸ rfl)
      calc cacheLookup (List.filter _ rest) k2 = cacheLookup rest k2 := ih
        _ = cacheLookup (p :: rest) k2 := by
            show _ = (List.find? _ (p :: rest)).map _
            rw [List.find?_cons_of_neg _ (by simpa using hpk2)]
            rfl
    · rw [if_pos (by simp [hp])]
      by_cases hpk2 : p.1 = k2
      · show (List.find? _ (p :: _)).map _ = (List.find? _ (p :: rest)).map _
        rw [List.find?_cons_of_pos _ (by simpa using hpk2),
          List.find?_cons_of_pos _ (by simpa using hpk2)]
      · show (List.find? _ (p :: _)).map _ = (List.find? _ (p :: rest)).map _
        rw [List.find?_cons_of_neg _ (by simpa using hpk2),
          List.find?_cons_of_neg _ (by simpa using hpk2)]
        exact ih

theorem cacheLookup_set_self {V : Type} (c : List (String × CEntry V)) (k : String) (v : V)
    (expiresAt : Nat) : cacheLookup (cacheSet c k v expiresAt) k = some ⟨v, expiresAt⟩ := by
  show (List.find? _ ((k, _) :: _)).map _ = _
  rw [List.find?_cons_of_pos _ (by simp)]
  rfl

theorem cacheLookup_set_ne {V : Type} (c : List (String × CEntry V)) {k k2 : String} (v : V)
    (expiresAt : Nat) (h : k2 ≠ k) :
    cacheLookup (cacheSet c k v expiresAt) k2 = cacheLookup c k2 := by
  show (List.find? _ ((k, _) :: _)).map _ = _
  rw [List.find?_cons_of_neg _ (by simpa using fun hc => h hc.symm)]
  exact cacheLookup_delete_ne c h

/-! ### Claim C3: `TTLCache.get` never returns an expired value -/

/-- C3: for every cache state, key and read time, `get` never returns a value
whose stored expiry has passed: an expired entry is reported absent and deleted
from the store during that same `get`; a returned value comes from an entry
whose expiry has not passed, with the store untouched; and `set` (the only
other write this module does besides `clear`) removes no other key's entries,
expired or not. -/
theorem c3_cache_get_never_returns_expired :
    ∀ (V : Type) (c : List (String × CEntry V)) (now : Nat) (k : String),
      (∀ e, cacheLookup c k = some e → e.expiresAt < now →
        cacheGet c now k = (none, cacheDelete c k) ∧
        cacheLookup (cacheDelete c k) k = none) ∧
      (∀ v c2, cacheGet c now k = (some v, c2) →
        ∃ e, cacheLookup c k = some e ∧ v = e.value ∧ ¬ e.expiresAt < now ∧ c2 = c) ∧
      (∀ k2 (v : V) (expiresAt : Nat), k2 ≠ k →
        cacheLookup (cacheSet c k2 v expiresAt) k = cacheLookup c k) := by
  intro V c now k
  refine ⟨?_, ?_, ?_⟩
  · intro e he hexp
    have hget : cacheGet c now k = (none, cacheDelete c k) := by
      simp [cacheGet, he, hexp]
    exact ⟨hget, cacheLookup_delete_self c k⟩
  · intro v c2 h
    cases he : cacheLookup c k with
    | none =>
      have hget : cacheGet c now k = (none, c) := by simp [cacheGet, he]
      rw [hget] at h
      exact absurd (congrArg Prod.fst h) (by simp)
    | some e =>
      by_cases hexp : e.expiresAt < now
      · have hget : cacheGet c now k = (none, cacheDelete c k) := by
          simp [cacheGet, he, hexp]
        rw [hget] at h
        exact absurd (congrArg Prod.fst h) (by simp)
      · have hget : cacheGet c now k = (some e.value, c) := by
          simp [cacheGet, he, hexp]
        rw [hget] at h
        have h1 : some e.value = some v := congrArg Prod.fst h
        have h2 : c = c2 := congrArg Prod.snd h
        exact ⟨e, rfl, (Option.some.inj h1).symm, hexp, h2.symm⟩
  · intro k2 v expiresAt hne
    exact cacheLookup_set_ne c v expiresAt (fun hc => hne hc.symm)

theorem c3_cache_get_never_returns_expired_witness :
    cacheGet [("k", (⟨7, 10⟩ : CEntry Nat))] 11 "k" =
      (none, cacheDelete [("k", (⟨7, 10⟩ : CEntry Nat))] "k") ∧
    cacheLookup (cacheDelete [("k", (⟨7, 10⟩ : CEntry Nat))] "k") "k" = none :=
  (c3_cache_get_never_returns_expired Nat [("k", ⟨7, 10⟩)] 11 "k").1 ⟨7, 10⟩ (by decide)
    (by decide)

/-- C1: merging the local-account listing with the shared-access listing keeps
exactly one record per canonical key `userKey` (the lower-cased
email / uuid / serverIdentifier-username / serverIdentifier-id chain from the
source): the merged list has pairwise distinct keys, every kept record is the
first record of the concatenated input carrying its key (kept unmodified),
every input key survives, and in particular `{email: "a@x.com", username: "u1"}`
followed by `{email: "A@X.COM", username: "u2"}` merges to the first record
alone. -/
theorem c1_user_merge_dedup :
    (∀ l1 l2 : List PlexUserAccess,
      (mergeServerUsers l1 l2).Pairwise (fun u v => userKey u ≠ userKey v) ∧
      (∀ u ∈ mergeServerUsers l1 l2,
        (l1 ++ l2).find? (fun v => userKey v == userKey u) = some u) ∧
      (∀ u ∈ l1 ++ l2, ∃ v ∈ mergeServerUsers l1 l2, userKey v = userKey u)) ∧
    mergeServerUsers [sampleUserA] [sampleUserB] = [sampleUserA] ∧
    sampleUserA.username = some "u1" := by
  refine ⟨?_, by decide, rfl⟩
  intro l1 l2
  refine ⟨dedupUsersGo_pairwise _ _, ?_, ?_⟩
  · intro u hu
    exact dedupUsersGo_find (by simpa [mergeServerUsers, dedupUsers] using hu)
  · intro u hu
    rcases dedupUsersGo_covers hu (show userKey u ∉ ([] : List String) by simp) with
      ⟨v, hv, hvk⟩
    exact ⟨v, by simpa [mergeServerUsers, dedupUsers] using hv, hvk⟩

theorem c1_user_merge_dedup_witness :
    ([sampleUserA] ++ [sampleUserB]).find?
      (fun v => userKey v == userKey sampleUserA) = some sampleUserA :=
  (c1_user_merge_dedup.1 [sampleUserA] [sampleUserB]).2.1 sampleUserA (by decide)

/-- C9 counterexample: a record with `email`, `uuid`, `username` all null but a
non-null id of 1 gets dedup key `"srv1-1"`, not `"srv1-unknown"`, and two such
records with ids 1 and 2 both survive the merge instead of collapsing to one. -/
theorem c9_counterexample :
    userKey (anonymousUser (some 1)) ≠ "srv1-unknown" ∧
    userKey (anonymousUser (some 1)) = "srv1-1" ∧
    userKey (anonymousUser (some 2)) = "srv1-2" ∧
    (mergeServerUsers [anonymousUser (some 1)] [anonymousUser (some 2)]).length = 2 := by
  refine ⟨by decide, by decide, by decide, by decide⟩

theorem dedupUsersGo_all_seen {l : List PlexUserAccess} {seenKeys : List String}
    (h : ∀ u ∈ l, userKey u ∈ seenKeys) : dedupUsersGo l seenKeys = [] := by
  induction l with
  | nil => rfl
  | cons x rest ih =>
    simp only [dedupUsersGo, if_pos (h x (by simp))]
    exact ih (fun u hu => h u (by simp [hu]))

/-- C9 amended: a record whose `email`, `uuid` and `username` are all null uses
the key `serverIdentifier-id` when its numeric id is non-null, and falls through
to `serverIdentifier-unknown` only when the id is null as well; records with all
four identity fields null on the same server are merged into one. -/
theorem c9_amended_fallback_key :
    (∀ u : PlexUserAccess, u.email = none → u.uuid = none → u.username = none →
      (u.id = none → userKey u = jsToLower (u.serverIdentifier ++ "-" ++ "unknown")) ∧
      (∀ n : Int, u.id = some n →
        userKey u = jsToLower (u.serverIdentifier ++ "-" ++ toString n))) ∧
    (∀ (l : List PlexUserAccess) (s : String),
      (∀ u ∈ l, u.email = none ∧ u.uuid = none ∧ u.username = none ∧ u.id = none ∧
        u.serverIdentifier = s) →
      (dedupUsers l).length ≤ 1) := by
  have hkey : ∀ u : PlexUserAccess, u.email = none → u.uuid = none → u.username = none →
      u.id = none → userKey u = jsToLower (u.serverIdentifier ++ "-" ++ "unknown") := by
    intro u he hu hn hi
    simp [userKey, userKeySource, userIdKey, he, hu, hn, hi]
  refine ⟨?_, ?_⟩
  · intro u he hu hn
    refine ⟨hkey u he hu hn, ?_⟩
    intro n hi
    simp [userKey, userKeySource, userIdKey, he, hu, hn, hi]
  · intro l s hall
    cases l with
    | nil => simp [dedupUsers, dedupUsersGo]
    | cons x rest =>
      have hx := hall x (by simp)
      show (dedupUsersGo (x :: rest) []).length ≤ 1
      simp only [dedupUsersGo, if_neg (List.not_mem_nil _)]
      rw [dedupUsersGo_all_seen (fun u hu => ?_)]
      · simp
      · have hu2 := hall u (by simp [hu])
        have h1 : userKey u = jsToLower (s ++ "-" ++ "unknown") := by
          rw [hkey u hu2.1 hu2.2.1 hu2.2.2.1 hu2.2.2.2.1, hu2.2.2.2.2]
        have h2 : userKey x = jsToLower (s ++ "-" ++ "unknown") := by
          rw [hkey x hx.1 hx.2.1 hx.2.2.1 hx.2.2.2.1, hx.2.2.2.2]
        simp [h1, h2]

theorem c9_amended_fallback_key_witness :
    userKey (anonymousUser none) = jsToLower ("srv1" ++ "-" ++ "unknown") ∧
    (dedupUsers [anonymousUser none, anonymousUser none]).length ≤ 1 :=
  ⟨(c9_amended_fallback_key.1 (anonymousUser none) rfl rfl rfl).1 rfl,
   c9_amended_fallback_key.2 [anonymousUser none, anonymousUser none] "srv1" (by decide)⟩

/-! Step lemmas for `getServers`. -/

theorem getServersStep_hit {ad : Adapter} {ttl now : Nat} {a : ConfigAccount}
    {cache : ServerCache} {e : CEntry (List PlexServer)}
    (he : cacheLookup cache (serversCacheKey a.label) = some e)
    (hexp : ¬ e.expiresAt < now) :
    getServersStep ad ttl now false a cache = (e.value, cache, 0) := by
  have hget : cacheGet cache now (serversCacheKey a.label) = (some e.value, cache) := by
    simp [cacheGet, he, hexp]
  simp [getServersStep, hget]

theorem getServersStep_post (ad : Adapter) (ttl now : Nat) (a : ConfigAccount)
    (cache : ServerCache) :
    ∃ e, cacheLookup (getServersStep ad ttl now false a cache).2.1
        (serversCacheKey a.label) = some e ∧
      e.value = (getServersStep ad ttl now false a cache).1 ∧ ¬ e.expiresAt < now := by
  cases he : cacheLookup cache (serversCacheKey a.label) with
  | none =>
    have hget : cacheGet cache now (serversCacheKey a.label) = (none, cache) := by
      simp [cacheGet, he]
    simp only [getServersStep, hget]
    exact ⟨⟨fetchAccountServers ad a, now + ttl⟩, cacheLookup_set_self _ _ _ _, rfl,
      by show ¬ now + ttl < now; omega⟩
  | some e =>
    by_cases hexp : e.expiresAt < now
    · have hget : cacheGet cache now (serversCacheKey a.label) =
          (none, cacheDelete cache (serversCacheKey a.label)) := by
        simp [cacheGet, he, hexp]
      simp only [getServersStep, hget]
      exact ⟨⟨fetchAccountServers ad a, now + ttl⟩, cacheLookup_set_self _ _ _ _, rfl,
        by show ¬ now + ttl < now; omega⟩
    · rw [getServersStep_hit he hexp]
      exact ⟨e, he, rfl, hexp⟩

theorem getServersStep_frame (ad : Adapter) (ttl now : Nat) (refresh : Bool)
    (a : ConfigAccount) (cache : ServerCache) {k : String}
    (hk : k ≠ serversCacheKey a.label) :
    cacheLookup (getServersStep ad ttl now refresh a cache).2.1 k = cacheLookup cache k := by
  cases he : cacheLookup cache (serversCacheKey a.label) with
  | none =>
    have hget : cacheGet cache now (serversCacheKey a.label) = (none, cache) := by
      simp [cacheGet, he]
    simp only [getServersStep, hget]
    exact cacheLookup_set_ne cache _ _ hk
  | some e =>
    by_cases hexp : e.expiresAt < now
    · have hget : cacheGet cache now (serversCacheKey a.label) =
          (none, cacheDelete cache (serversCacheKey a.label)) := by
        simp [cacheGet, he, hexp]
      simp only [getServersStep, hget]
      rw [cacheLookup_set_ne _ _ _ hk]
      exact cacheLookup_delete_ne cache hk
    · have hget : cacheGet cache now (serversCacheKey a.label) = (some e.value, cache) := by
        simp [cacheGet, he, hexp]
      cases refresh with
      | false => simp only [getServersStep, hget, Bool.false_eq_true, if_false]
      | true =>
        simp only [getServersStep, hget, if_true]
        exact cacheLookup_set_ne cache _ _ hk

theorem getServersStep_preserve (ad : Adapter) (ttl now : Nat) (a : ConfigAccount)
    (cache : ServerCache) {k : String} {e : CEntry (List PlexServer)}
    (he : cacheLookup cache k = some e) (hexp : ¬ e.expiresAt < now) :
    cacheLookup (getServersStep ad ttl now false a cache).2.1 k = some e := by
  by_cases hk : k = serversCacheKey a.label
  · subst hk
    rw [getServersStep_hit he hexp]
    exact he
  · rw [getServersStep_frame ad ttl now false a cache hk]
    exact he

theorem getServersGo_preserve (ad : Adapter) (ttl now : Nat) :
    ∀ (accounts : List ConfigAccount) (cache : ServerCache) (seenKeys : List String)
      (agg : List PlexServer) {k : String} {e : CEntry (List PlexServer)},
      cacheLookup cache k = some e → ¬ e.expiresAt < now →
      cacheLookup (getServersGo ad ttl now false accounts cache seenKeys agg).cache k =
        some e := by
  intro accounts
  induction accounts with
  | nil => intro cache s g k e he _; exact he
  | cons a rest ih =>
    intro cache s g k e he hexp
    exact ih _ _ _ (getServersStep_preserve ad ttl now a cache he hexp) hexp

theorem getServersGo_second_run (ad : Adapter) (ttl t1 t2 : Nat) :
    ∀ (accounts : List ConfigAccount) (cache : ServerCache) (seenKeys : List String)
      (agg : List PlexServer),
      (∀ a ∈ accounts, ∃ e,
        cacheLookup (getServersGo ad ttl t1 false accounts cache seenKeys agg).cache
          (serversCacheKey a.label) = some e ∧ ¬ e.expiresAt < t2) →
      getServersGo ad ttl t2 false accounts
          (getServersGo ad ttl t1 false accounts cache seenKeys agg).cache seenKeys agg =
        ⟨(getServersGo ad ttl t1 false accounts cache seenKeys agg).servers,
         (getServersGo ad ttl t1 false accounts cache seenKeys agg).cache, 0⟩ := by
  intro accounts
  induction accounts with
  | nil => intro cache s g _; rfl
  | cons a rest ih =>
    intro cache seenKeys agg hyp
    obtain ⟨e1, he1, hv1, hf1⟩ := getServersStep_post ad ttl t1 a cache
    set st := getServersStep ad ttl t1 false a cache with hst
    set pushed := pushServers a.label st.1 seenKeys agg with hpush
    set R := getServersGo ad ttl t1 false rest st.2.1 pushed.1 pushed.2 with hR
    have houter : getServersGo ad ttl t1 false (a :: rest) cache seenKeys agg =
        ⟨R.servers, R.cache, st.2.2 + R.adapterCalls⟩ := rfl
    have hkeep : cacheLookup R.cache (serversCacheKey a.label) = some e1 :=
      getServersGo_preserve ad ttl t1 rest st.2.1 pushed.1 pushed.2 he1 hf1
    obtain ⟨e2, he2, hf2⟩ := hyp a (List.mem_cons_self a rest)
    rw [houter] at he2
    have he2' : cacheLookup R.cache (serversCacheKey a.label) = some e2 := he2
    have hee : e1 = e2 := Option.some.inj (hkeep.symm.trans he2')
    have hf1' : ¬ e1.expiresAt < t2 := by rw [hee]; exact hf2
    have hstep2 : getServersStep ad ttl t2 false a R.cache = (e1.value, R.cache, 0) :=
      getServersStep_hit hkeep hf1'
    have hyp2 : ∀ b ∈ rest, ∃ e,
        cacheLookup (getServersGo ad ttl t1 false rest st.2.1 pushed.1 pushed.2).cache
          (serversCacheKey b.label) = some e ∧ ¬ e.expiresAt < t2 := by
      intro b hb
      obtain ⟨e, he, hf⟩ := hyp b (List.mem_cons_of_mem a hb)
      rw [houter] at he
      exact ⟨e, he, hf⟩
    have hih := ih st.2.1 pushed.1 pushed.2 hyp2
    rw [← hR] at hih
    rw [houter]
    show getServersGo ad ttl t2 false (a :: rest) R.cache seenKeys agg =
      ⟨R.servers, R.cache, 0⟩
    simp only [getServersGo, hstep2]
    rw [hv1, ← hpush]
    rw [hih]
    simp

/-! ### Claim C4: a second `getServers(false)` within the TTL window -/

/-- C4: if a second `getServers(false)` happens while every account's
server-list cache entry (as left by the first call) is still within its TTL,
the second call makes zero Directory Client Adapter calls (no `getResources`,
no `connectToServer`: the adapter-call counter is 0), returns a list identical
to the first call's result, and leaves the cache unchanged. -/
theorem c4_getServers_cached_second_call :
    ∀ (ad : Adapter) (ttl t1 t2 : Nat) (accounts : List ConfigAccount)
      (cache0 : ServerCache),
      (∀ a ∈ accounts, ∃ e,
        cacheLookup (getServers ad ttl t1 accounts false cache0).cache
          (serversCacheKey a.label) = some e ∧ ¬ e.expiresAt < t2) →
      getServers ad ttl t2 accounts false (getServers ad ttl t1 accounts false cache0).cache =
        ⟨(getServers ad ttl t1 accounts false cache0).servers,
         (getServers ad ttl t1 accounts false cache0).cache, 0⟩ :=
  fun ad ttl t1 t2 accounts cache0 hyp =>
    getServersGo_second_run ad ttl t1 t2 accounts cache0 [] [] hyp

theorem c4_getServers_cached_second_call_witness :
    getServers sampleAdapter 100 50 [accountL1, accountL2] false
        (getServers sampleAdapter 100 0 [accountL1, accountL2] false []).cache =
      ⟨(getServers sampleAdapter 100 0 [accountL1, accountL2] false []).servers,
       (getServers sampleAdapter 100 0 [accountL1, accountL2] false []).cache, 0⟩ := by
  apply c4_getServers_cached_second_call sampleAdapter 100 0 50 [accountL1, accountL2] []
  intro a ha
  rcases List.mem_cons.mp ha with h | h
  · subst h
    exact ⟨⟨fetchAccountServers sampleAdapter accountL1, 100⟩, by decide, by decide⟩
  · rcases List.mem_cons.mp h with h2 | h2
    · subst h2
      exact ⟨⟨fetchAccountServers sampleAdapter accountL2, 100⟩, by decide, by decide⟩
    · simp at h2

theorem serverCacheWF_nil : ServerCacheWF [] := by
  intro label e he
  simp [cacheLookup] at he

theorem string_append_left_cancel {s t u : String} (h : s ++ t = s ++ u) : t = u := by
  have hd : s.data ++ t.data = s.data ++ u.data := by
    have h1 := congrArg String.data h
    have h2 : ∀ x y : String, (x ++ y).data = x.data ++ y.data := by
      intro x y
      cases x
      cases y
      rfl
    rwa [h2, h2] at h1
  exact String.ext (List.append_cancel_left hd)

theorem serversCacheKey_inj {l1 l2 : String} (h : serversCacheKey l1 = serversCacheKey l2) :
    l1 = l2 :=
  string_append_left_cancel h

theorem connectGo_label (probe : String → Option ProbeOk) (resource : PlexResource)
    (label : String) :
    ∀ (conns : List PlexConnection) (s : PlexServer),
      connectGo probe resource label conns = some s →
      s.accountLabel = label ∧ s.machineIdentifier = resource.machineIdentifier := by
  intro conns
  induction conns with
  | nil => intro s h; simp [connectGo] at h
  | cons c rest ih =>
    intro s h
    by_cases hc : c.uri = ""
    · rw [connectGo, if_pos hc] at h
      exact ih s h
    · rw [connectGo, if_neg hc] at h
      cases hp : probe c.uri with
      | some mc =>
        rw [hp] at h
        cases Option.some.inj h
        exact ⟨rfl, rfl⟩
      | none =>
        rw [hp] at h
        exact ih s h

theorem fetchAccountServers_label (ad : Adapter) (a : ConfigAccount) :
    ∀ s ∈ fetchAccountServers ad a, s.accountLabel = a.label := by
  intro s hs
  rcases List.mem_filterMap.mp hs with ⟨r, _, hr⟩
  exact (connectGo_label (ad.probe a) r a.label r.connections s hr).1

theorem serverCacheWF_delete {c : ServerCache} {k : String} (h : ServerCacheWF c) :
    ServerCacheWF (cacheDelete c k) := by
  intro label e he s hs
  by_cases hk : serversCacheKey label = k
  · rw [hk, cacheLookup_delete_self] at he
    exact absurd he (by simp)
  · rw [cacheLookup_delete_ne c hk] at he
    exact h label e he s hs

theorem serverCacheWF_set {c : ServerCache} {a : ConfigAccount} {v : List PlexServer}
    {exp : Nat} (h : ServerCacheWF c) (hv : ∀ s ∈ v, s.accountLabel = a.label) :
    ServerCacheWF (cacheSet c (serversCacheKey a.label) v exp) := by
  intro label e he s hs
  by_cases hk : serversCacheKey label = serversCacheKey a.label
  · have hl : label = a.label := serversCacheKey_inj hk
    rw [hk, cacheLookup_set_self] at he
    obtain rfl := Option.some.inj he
    rw [hl]
    exact hv s hs
  · rw [cacheLookup_set_ne c v exp hk] at he
    exact h label e he s hs

theorem getServersStep_wf_label (ad : Adapter) (ttl now : Nat) (refresh : Bool)
    (a : ConfigAccount) (cache : ServerCache) (h : ServerCacheWF cache) :
    (∀ s ∈ (getServersStep ad ttl now refresh a cache).1, s.accountLabel = a.label) ∧
    ServerCacheWF (getServersStep ad ttl now refresh a cache).2.1 := by
  cases hg : cacheLookup cache (serversCacheKey a.label) with
  | none =>
    have hget : cacheGet cache now (serversCacheKey a.label) = (none, cache) := by
      simp [cacheGet, hg]
    simp only [getServersStep, hget]
    exact ⟨fetchAccountServers_label ad a,
      serverCacheWF_set h (fetchAccountServers_label ad a)⟩
  | some e =>
    by_cases hexp : e.expiresAt < now
    · have hget : cacheGet cache now (serversCacheKey a.label) =
          (none, cacheDelete cache (serversCacheKey a.label)) := by
        simp [cacheGet, hg, hexp]
      simp only [getServersStep, hget]
      exact ⟨fetchAccountServers_label ad a,
        serverCacheWF_set (serverCacheWF_delete h) (fetchAccountServers_label ad a)⟩
    · have hget : cacheGet cache now (serversCacheKey a.label) = (some e.value, cache) := by
        simp [cacheGet, hg, hexp]
      cases refresh with
      | true =>
        simp only [getServersStep, hget, if_true]
        exact ⟨fetchAccountServers_label ad a,
          serverCacheWF_set h (fetchAccountServers_label ad a)⟩
      | false =>
        simp only [getServersStep, hget, Bool.false_eq_true, if_false]
        exact ⟨h a.label e hg, h⟩

theorem pushServers_inv (label : String) (P : PlexServer → Prop) :
    ∀ (servers : List PlexServer) (seenKeys : List String) (agg : List PlexServer),
      (∀ s ∈ servers, s.accountLabel = label) →
      (∀ s ∈ agg, aggKey s ∈ seenKeys) →
      agg.Pairwise (fun s t => aggKey s ≠ aggKey t) →
      (∀ s ∈ agg, P s) →
      (∀ s ∈ servers, P s) →
      (∀ s ∈ (pushServers label servers seenKeys agg).2,
        aggKey s ∈ (pushServers label servers seenKeys agg).1) ∧
      (pushServers label servers seenKeys agg).2.Pairwise
        (fun s t => aggKey s ≠ aggKey t) ∧
      (∀ s ∈ (pushServers label servers seenKeys agg).2, P s) := by
  intro servers
  induction servers with
  | nil => intro seen agg _ h1 h2 h3 _; exact ⟨h1, h2, h3⟩
  | cons s rest ih =>
    intro seen agg hlab h1 h2 h3 h4
    have hsl : s.accountLabel = label := hlab s (by simp)
    have hks : serverDedupKey s.machineIdentifier label = aggKey s := by
      rw [aggKey, hsl]
    by_cases hk : serverDedupKey s.machineIdentifier label ∈ seen
    · simp only [pushServers, if_pos hk]
      exact ih seen agg (fun t ht => hlab t (List.mem_cons_of_mem _ ht)) h1 h2 h3
        (fun t ht => h4 t (List.mem_cons_of_mem _ ht))
    · simp only [pushServers, if_neg hk]
      apply ih
      · exact fun t ht => hlab t (List.mem_cons_of_mem _ ht)
      · intro t ht
        rcases List.mem_append.mp ht with h | h
        · exact List.mem_cons_of_mem _ (h1 t h)
        · have : t = s := by simpa using h
          subst this
          rw [← hks]
          exact List.mem_cons_self _ _
      · rw [List.pairwise_append]
        refine ⟨h2, by simp, ?_⟩
        intro t ht u hu
        have : u = s := by simpa using hu
        subst this
        intro hc
        rw [← hc] at hks
        exact hk (hks ▸ h1 t ht)
      · intro t ht
        rcases List.mem_append.mp ht with h | h
        · exact h3 t h
        · have : t = s := by simpa using h
          subst this
          exact h4 t (by simp)
      · exact fun t ht => h4 t (List.mem_cons_of_mem _ ht)

theorem getServersGo_inv (ad : Adapter) (ttl now : Nat) (refresh : Bool)
    (P : PlexServer → Prop) :
    ∀ (accounts : List ConfigAccount) (cache : ServerCache) (seenKeys : List String)
      (agg : List PlexServer),
      ServerCacheWF cache →
      (∀ s ∈ agg, aggKey s ∈ seenKeys) →
      agg.Pairwise (fun s t => aggKey s ≠ aggKey t) →
      (∀ s ∈ agg, P s) →
      (∀ a ∈ accounts, ∀ s : PlexServer, s.accountLabel = a.label → P s) →
      (getServersGo ad ttl now refresh accounts cache seenKeys agg).servers.Pairwise
        (fun s t => aggKey s ≠ aggKey t) ∧
      (∀ s ∈ (getServersGo ad ttl now refresh accounts cache seenKeys agg).servers, P s) ∧
      ServerCacheWF (getServersGo ad ttl now refresh accounts cache seenKeys agg).cache := by
  intro accounts
  induction accounts with
  | nil => intro cache s g hwf h1 h2 h3 _; exact ⟨h2, h3, hwf⟩
  | cons a rest ih =>
    intro cache seen agg hwf h1 h2 h3 hacc
    obtain ⟨hlab, hwf2⟩ := getServersStep_wf_label ad ttl now refresh a cache hwf
    obtain ⟨p1, p2, p3⟩ := pushServers_inv a.label P
      (getServersStep ad ttl now refresh a cache).1 seen agg hlab h1 h2 h3
      (fun s hs => hacc a (by simp) s (hlab s hs))
    exact ih (getServersStep ad ttl now refresh a cache).2.1 _ _ hwf2 p1 p2 p3
      (fun b hb => hacc b (List.mem_cons_of_mem _ hb))

/-! ### Claim C2: `getServers` dedups by `(machineIdentifier, accountLabel)` -/

/-- C2: over every account sequence and adapter response (and every
well-formed cache state, the empty initial store included), the aggregated
`getServers` list holds at most one server per
`(machineIdentifier, accountLabel)` pair; concretely, two accounts whose
resource listings both advertise machine `M1` produce two entries in
first-seen account order (one per account label), while a single account whose
listing advertises `M1` twice produces one. -/
theorem c2_getServers_dedup_pairs :
    (∀ (ad : Adapter) (ttl now : Nat) (accounts : List ConfigAccount) (refresh : Bool)
      (cache : ServerCache), ServerCacheWF cache →
      (getServers ad ttl now accounts refresh cache).servers.Pairwise
        (fun s t => (s.machineIdentifier, s.accountLabel) ≠
          (t.machineIdentifier, t.accountLabel))) ∧
    ((getServers sampleAdapter 100 0 [accountL1, accountL2] false []).servers.map
      (fun s => (s.machineIdentifier, s.accountLabel))) = [("M1", "L1"), ("M1", "L2")] ∧
    ((getServers dupAdapter 100 0 [accountL1] false []).servers.map
      (fun s => (s.machineIdentifier, s.accountLabel))) = [("M1", "L1")] := by
  refine ⟨?_, by decide, by decide⟩
  intro ad ttl now accounts refresh cache hwf
  have hkeys := (getServersGo_inv ad ttl now refresh (fun _ => True) accounts cache [] []
    hwf (by simp) (by simp) (by simp) (by simp)).1
  refine hkeys.imp ?_
  intro s t h hc
  apply h
  have h1 : s.machineIdentifier = t.machineIdentifier := congrArg Prod.fst hc
  have h2 : s.accountLabel = t.accountLabel := congrArg Prod.snd hc
  rw [aggKey, aggKey, serverDedupKey, serverDedupKey, h1, h2]

theorem c2_getServers_dedup_pairs_witness :
    (getServers sampleAdapter 100 0 [accountL1, accountL2] false []).servers.Pairwise
      (fun s t => (s.machineIdentifier, s.accountLabel) ≠
        (t.machineIdentifier, t.accountLabel)) :=
  c2_getServers_dedup_pairs.1 sampleAdapter 100 0 [accountL1, accountL2] false []
    serverCacheWF_nil

theorem find_account_isSome {accounts : List ConfigAccount} {label : String}
    (h : label ∈ accounts.map (fun a => a.label)) :
    (accounts.find? (fun acct => acct.label == label)).isSome := by
  induction accounts with
  | nil => simp at h
  | cons a rest ih =>
    by_cases ha : a.label = label
    · rw [List.find?_cons_of_pos _ (by simpa using ha)]
      rfl
    · rw [List.find?_cons_of_neg _ (by simpa using ha)]
      apply ih
      rcases (by simpa using h : label = a.label ∨ label ∈ rest.map (fun a => a.label)) with
        h2 | h2
      · exact absurd h2.symm ha
      · exact h2

theorem findAccount_fields_isSome {accounts : List ConfigAccount} {label : String}
    (h : label ∈ accounts.map (fun a => a.label)) :
    (findTokenForAccount accounts label).isSome ∧
    (findClientIdentifier accounts label).isSome := by
  obtain ⟨acct, hfind⟩ := Option.isSome_iff_exists.mp (find_account_isSome h)
  constructor
  · simp [findTokenForAccount, hfind]
  · simp [findClientIdentifier, hfind]

theorem getUsersGo_ok (fetchUsers : PlexServer → String → String → List PlexUserAccess)
    (ttl now : Nat) (accounts : List ConfigAccount) (refresh : Bool) :
    ∀ (servers : List PlexServer) (ucache : UserCache) (users : List PlexUserAccess),
      (∀ s ∈ servers, (findTokenForAccount accounts s.accountLabel).isSome ∧
        (findClientIdentifier accounts s.accountLabel).isSome) →
      ∃ out, getUsersGo fetchUsers ttl now accounts refresh servers ucache users =
        .ok out := by
  intro servers
  induction servers with
  | nil => intro uc us _; exact ⟨(us, uc), rfl⟩
  | cons s rest ih =>
    intro uc us hall
    obtain ⟨ht, hc⟩ := hall s (by simp)
    obtain ⟨tok, htok⟩ := Option.isSome_iff_exists.mp ht
    obtain ⟨cid, hcid⟩ := Option.isSome_iff_exists.mp hc
    have hrest : ∀ t ∈ rest, (findTokenForAccount accounts t.accountLabel).isSome ∧
        (findClientIdentifier accounts t.accountLabel).isSome :=
      fun t htm => hall t (List.mem_cons_of_mem _ htm)
    cases hg : (cacheGet uc now (usersCacheKey s)).1 with
    | some cached =>
      cases refresh with
      | false =>
        simp only [getUsersGo, hg, Bool.false_eq_true, if_false]
        exact ih _ _ hrest
      | true =>
        simp only [getUsersGo, hg, htok, hcid, if_true]
        exact ih _ _ hrest
    | none =>
      simp only [getUsersGo, hg, htok, hcid]
      exact ih _ _ hrest

/-! ### Claim C10: aggregated servers carry configured account labels -/

/-- C10: starting from a well-formed server-cache state (which is every state
the manager produces, the empty initial one included), every server returned
by `getServers` carries the label of one of the configured accounts, so
`findTokenForAccount` and `findClientIdentifier` succeed on it, and
`getUsersAcrossServers` never reaches its `No account found for label` error
branch: it always returns `.ok`. -/
theorem c10_account_lookup_never_fails :
    ∀ (ad : Adapter) (fetchUsers : PlexServer → String → String → List PlexUserAccess)
      (ttl now : Nat) (accounts : List ConfigAccount) (refresh : Bool)
      (scache : ServerCache) (ucache : UserCache),
      ServerCacheWF scache →
      (∀ s ∈ (getServers ad ttl now accounts refresh scache).servers,
        s.accountLabel ∈ accounts.map (fun a => a.label) ∧
        (findTokenForAccount accounts s.accountLabel).isSome ∧
        (findClientIdentifier accounts s.accountLabel).isSome) ∧
      ∃ out, getUsersAcrossServers ad fetchUsers ttl now accounts refresh scache ucache =
        .ok out := by
  intro ad fetchUsers ttl now accounts refresh scache ucache hwf
  have hmem : ∀ s ∈ (getServers ad ttl now accounts refresh scache).servers,
      s.accountLabel ∈ accounts.map (fun a => a.label) := by
    have h := (getServersGo_inv ad ttl now refresh
      (fun s => s.accountLabel ∈ accounts.map (fun a => a.label)) accounts scache [] []
      hwf (by simp) (by simp) (by simp)
      (by intro a ha s hs; rw [hs]; exact List.mem_map_of_mem _ ha)).2.1
    exact h
  refine ⟨fun s hs => ⟨hmem s hs, findAccount_fields_isSome (hmem s hs)⟩, ?_⟩
  exact getUsersGo_ok fetchUsers ttl now accounts refresh _ ucache []
    (fun s hs => findAccount_fields_isSome (hmem s hs))

theorem c10_account_lookup_never_fails_witness :
    (getUsersAcrossServers sampleAdapter (fun _ _ _ => []) 100 0 [accountL1] false
      [] []).isOk = true := by
  obtain ⟨out, hout⟩ := (c10_account_lookup_never_fails sampleAdapter (fun _ _ _ => [])
    100 0 [accountL1] false [] [] serverCacheWF_nil).2
  rw [hout]
  rfl

/-! ### Claim C7: validateAccounts isolates per-account failures -/

/-- C7: `validateAccounts` returns exactly one result per configured account in
account-list order: each account maps independently (through its own adapter
response only) to `{label, valid: true, username, email}` on success and
`{label, valid: false}` on failure — a thrown adapter error maps to a failed
validation — so one account's failure neither aborts nor alters the others. -/
theorem c7_validateAccounts_per_account :
    ∀ (accounts : List ConfigAccount)
      (resp : ConfigAccount → Except String (Option UserNode)),
      (validateAccounts accounts resp).length = accounts.length ∧
      validateAccounts accounts resp = accounts.map (fun a =>
        match validateToken (resp a) with
        | some info =>
          { label := a.label, valid := true, username := info.username,
            email := info.email }
        | none => { label := a.label, valid := false, username := none, email := none }) ∧
      (∀ e : String, validateToken (.error e) = none) := by
  intro accounts resp
  have hmap : validateAccounts accounts resp = accounts.map (fun a =>
      match validateToken (resp a) with
      | some info =>
        { label := a.label, valid := true, username := info.username,
          email := info.email }
      | none => { label := a.label, valid := false, username := none, email := none }) := by
    induction accounts with
    | nil => rfl
    | cons a rest ih => simp only [validateAccounts, List.map_cons, ih]
  refine ⟨?_, hmap, fun _ => rfl⟩
  rw [hmap, List.length_map]

/-! ### Claim C8: PIN creation/poll failures are propagated, one call each -/

/-- C8: `createAuthPin` (under `generateAuthPin`) and `checkAuthPin` (under
`checkAuthPinStatus`) each make exactly one remote call per invocation —
never retrying or caching — propagate a remote failure to the caller
unchanged, and on success return exactly the remote payload (no locally
substituted result). -/
theorem c8_pin_calls_propagate_errors :
    ∀ (clientIdentifier : Option String) (generatedIdentifier : String)
      (remoteCreatePin : String → Except String PinResp) (id : Int)
      (pollIdentifier : String) (remotePollPin : Int → String → Except String PinResp),
      (createAuthPin clientIdentifier generatedIdentifier remoteCreatePin).2 = 1 ∧
      (generateAuthPin clientIdentifier generatedIdentifier remoteCreatePin).2 = 1 ∧
      (checkAuthPin id pollIdentifier remotePollPin).2 = 1 ∧
      (checkAuthPinStatus id pollIdentifier remotePollPin).2 = 1 ∧
      (∀ e, remoteCreatePin (clientIdentifier.getD generatedIdentifier) = .error e →
        (createAuthPin clientIdentifier generatedIdentifier remoteCreatePin).1 =
          .error e ∧
        (generateAuthPin clientIdentifier generatedIdentifier remoteCreatePin).1 =
          .error e) ∧
      (∀ e, remotePollPin id pollIdentifier = .error e →
        (checkAuthPin id pollIdentifier remotePollPin).1 = .error e ∧
        (checkAuthPinStatus id pollIdentifier remotePollPin).1 = .error e) ∧
      (∀ pin, remoteCreatePin (clientIdentifier.getD generatedIdentifier) = .ok pin →
        (createAuthPin clientIdentifier generatedIdentifier remoteCreatePin).1 =
          .ok { id := pin.id, code := pin.code,
                clientIdentifier := clientIdentifier.getD generatedIdentifier,
                expiresAt := pin.expiresAt, authToken := pin.authToken }) ∧
      (∀ pin, remotePollPin id pollIdentifier = .ok pin →
        (checkAuthPin id pollIdentifier remotePollPin).1 =
          .ok { id := pin.id, code := pin.code, clientIdentifier := pollIdentifier,
                expiresAt := pin.expiresAt, authToken := pin.authToken }) := by
  intro cid gen remoteCreate id pollId remotePoll
  refine ⟨?_, ?_, ?_, ?_, ?_, ?_, ?_, ?_⟩
  · cases h : remoteCreate (cid.getD gen) <;> simp [createAuthPin, h]
  · cases h : remoteCreate (cid.getD gen) <;>
      simp [generateAuthPin, createAuthPin, h]
  · cases h : remotePoll id pollId <;> simp [checkAuthPin, h]
  · cases h : remotePoll id pollId <;> simp [checkAuthPinStatus, checkAuthPin, h]
  · intro e he
    constructor
    · simp [createAuthPin, he]
    · simp [generateAuthPin, createAuthPin, he]
  · intro e he
    constructor
    · simp [checkAuthPin, he]
    · simp [checkAuthPinStatus, checkAuthPin, he]
  · intro pin hp
    simp [createAuthPin, hp]
  · intro pin hp
    simp [checkAuthPin, hp]

theorem c8_pin_calls_propagate_errors_witness :
    (createAuthPin none "gen-id" (fun _ => .error "boom")).1 = .error "boom" ∧
    (generateAuthPin none "gen-id" (fun _ => .error "boom")).1 = .error "boom" ∧
    (checkAuthPin 7 "cid" (fun _ _ => .error "poll-down")).1 = .error "poll-down" ∧
    (checkAuthPinStatus 7 "cid" (fun _ _ => .error "poll-down")).2 = 1 := by
  have h := c8_pin_calls_propagate_errors none "gen-id" (fun _ => .error "boom") 7 "cid"
    (fun _ _ => .error "poll-down")
  obtain ⟨_, _, _, h4, h5, h6, _, _⟩ := h
  obtain ⟨hc, hg⟩ := h5 "boom" rfl
  obtain ⟨hp, _⟩ := h6 "poll-down" rfl
  exact ⟨hc, hg, hp, h4⟩

/-! ### Claim C5: blank query / empty user set short-circuit -/

/-- C5: a query whose trimmed form is empty yields
`{matches: [], totalMatched: 0, totalSearched: 0}` immediately, for every
users oracle and with zero upstream calls (so `getUsersAcrossServers` is never
invoked); and a non-blank query over an empty aggregated user set also yields
that empty result. -/
theorem c5_search_empty_short_circuit :
    ∀ (getUsers : Bool → List PlexUserAccess × Nat) (query : String)
      (maxResults : Option Nat) (refresh : Bool),
      (jsTrim query = "" →
        searchUsers getUsers query maxResults refresh = (emptySearchResult, 0)) ∧
      (∀ n, jsTrim query ≠ "" → getUsers refresh = ([], n) →
        searchUsers getUsers query maxResults refresh = (emptySearchResult, n)) := by
  intro gu q mr r
  constructor
  · intro h
    simp [searchUsers, h]
  · intro n hq hu
    simp [searchUsers, hq, hu]

theorem c5_search_empty_short_circuit_witness :
    searchUsers (fun _ => ([sampleUserA], 3)) "   " none false =
      (emptySearchResult, 0) ∧
    searchUsers (fun _ => ([], 5)) "alice" none false = (emptySearchResult, 5) :=
  ⟨(c5_search_empty_short_circuit (fun _ => ([sampleUserA], 3)) "   " none false).1
      (by decide),
   (c5_search_empty_short_circuit (fun _ => ([], 5)) "alice" none false).2 5
      (by decide) rfl⟩

/-! Score-range and ordering lemmas for the fuzzy index model. -/

theorem mkRat_eq_div' (n : Int) (d : Nat) : mkRat n d = (n : ℚ) / (d : ℚ) := by
  rw [Rat.mkRat_eq_divInt, Rat.divInt_eq_div]
  norm_num

theorem ratMul_eq (a b : ℚ) : ratMul a b = a * b := by
  rw [ratMul, mkRat_eq_div']
  push_cast
  rw [← div_mul_div_comm]
  rw [Rat.num_div_den, Rat.num_div_den]

theorem ratOneSubHalf_eq (w : ℚ) : ratOneSubHalf w = 1 - w / 2 := by
  have hden : ((w.den : ℚ)) ≠ 0 := Nat.cast_ne_zero.mpr w.den_pos.ne'
  have hnum : (w.num : ℚ) = w * w.den := (div_eq_iff hden).mp (Rat.num_div_den w)
  rw [ratOneSubHalf, mkRat_eq_div']
  push_cast
  field_simp
  rw [hnum]
  ring

theorem fieldRatio_bounds (q f : String) : 0 ≤ fieldRatio q f ∧ fieldRatio q f ≤ 1 := by
  rw [fieldRatio, mkRat_eq_div']
  by_cases hm : max q.length f.length = 0
  · rw [hm]
    norm_num
  · have hpos : (0 : ℚ) < ((max q.length f.length : Nat) : ℚ) :=
      Nat.cast_pos.mpr (Nat.pos_of_ne_zero hm)
    refine ⟨div_nonneg (by positivity) hpos.le, ?_⟩
    rw [div_le_one hpos]
    have hle : min (levenshtein q f) (max q.length f.length) ≤ max q.length f.length :=
      min_le_right _ _
    exact_mod_cast hle

theorem fuse_entry_bound {r w : ℚ} (hr0 : 0 ≤ r) (hr1 : r ≤ 1) (hw0 : 0 ≤ w)
    (hw1 : w ≤ 1) :
    0 ≤ ratMul r (ratOneSubHalf w) ∧ ratMul r (ratOneSubHalf w) ≤ 1 := by
  rw [ratMul_eq, ratOneSubHalf_eq]
  have hf0 : 0 ≤ 1 - w / 2 := by linarith
  have hf1 : 1 - w / 2 ≤ 1 := by linarith
  refine ⟨mul_nonneg hr0 hf0, ?_⟩
  calc r * (1 - w / 2) ≤ 1 * 1 := mul_le_mul hr1 hf1 hf0 (by norm_num)
    _ = 1 := by norm_num

theorem fuseFieldValues_weight (u : PlexUserAccess) :
    ∀ kfw ∈ fuseFieldValues u, 0 ≤ kfw.2.2 ∧ kfw.2.2 ≤ 1 := by
  intro kfw h
  rcases (by simpa [fuseFieldValues] using h :
      kfw = ("email", u.email, mkRat 1 2) ∨ kfw = ("username", u.username, mkRat 3 10) ∨
        kfw = ("title", u.title, mkRat 1 5)) with rfl | rfl | rfl <;>
    norm_num [mkRat_eq_div']

theorem fuseCandidates_bounds (q : String) (u : PlexUserAccess) :
    ∀ c ∈ fuseCandidates q u, 0 ≤ c.2 ∧ c.2 ≤ 1 := by
  intro c hc
  rcases List.mem_filterMap.mp hc with ⟨kfw, hmem, hk⟩
  obtain ⟨hw0, hw1⟩ := fuseFieldValues_weight u kfw hmem
  cases hf : kfw.2.1 with
  | none => rw [hf] at hk; simp at hk
  | some fieldValue =>
    rw [hf] at hk
    by_cases hth : fieldRatio q fieldValue ≤ fuseThreshold
    · simp only [hth, if_true] at hk
      obtain rfl := Option.some.inj hk
      obtain ⟨hr0, hr1⟩ := fieldRatio_bounds q fieldValue
      exact fuse_entry_bound hr0 hr1 hw0 hw1
    · simp [hth] at hk

theorem foldl_min_bounds :
    ∀ (l : List (MatchDetail × ℚ)) (acc : ℚ), 0 ≤ acc → acc ≤ 1 →
      (∀ x ∈ l, 0 ≤ x.2 ∧ x.2 ≤ 1) →
      0 ≤ l.foldl (fun m x => min m x.2) acc ∧
      l.foldl (fun m x => min m x.2) acc ≤ 1 := by
  intro l
  induction l with
  | nil => intro acc h0 h1 _; exact ⟨h0, h1⟩
  | cons x rest ih =>
    intro acc h0 h1 hall
    obtain ⟨hx0, _⟩ := hall x (by simp)
    exact ih (min acc x.2) (le_min h0 hx0) (le_trans (min_le_left _ _) h1)
      (fun y hy => hall y (List.mem_cons_of_mem _ hy))

theorem fuseScoreUser_bounds {q : String} {u : PlexUserAccess} {s : ℚ}
    {ds : List MatchDetail} (h : fuseScoreUser q u = some (s, ds)) :
    0 ≤ s ∧ s ≤ 1 := by
  cases hc : fuseCandidates q u with
  | nil => simp [fuseScoreUser, hc] at h
  | cons c cs =>
    simp only [fuseScoreUser, hc, Option.some.injEq, Prod.mk.injEq] at h
    have hcb := fuseCandidates_bounds q u
    rw [hc] at hcb
    obtain ⟨h0, h1⟩ := hcb c (by simp)
    have hb := foldl_min_bounds cs c.2 h0 h1
      (fun x hx => hcb x (List.mem_cons_of_mem _ hx))
    rw [h.1] at hb
    exact hb

theorem fuseSearch_sorted (users : List PlexUserAccess) (q : String) (limit : Nat) :
    (fuseSearch users q limit).Pairwise (fun a b => a.score ≤ b.score) := by
  haveI : IsTotal FuseResult (fun a b : FuseResult => a.score ≤ b.score) :=
    ⟨fun a b => le_total a.score b.score⟩
  haveI : IsTrans FuseResult (fun a b : FuseResult => a.score ≤ b.score) :=
    ⟨fun a b c hab hbc => le_trans hab hbc⟩
  exact List.Pairwise.sublist (List.take_sublist _ _) (List.sorted_insertionSort _ _)

theorem fuseSearch_length_le (users : List PlexUserAccess) (q : String) (limit : Nat) :
    (fuseSearch users q limit).length ≤ limit :=
  List.length_take_le _ _

theorem fuseSearch_mem_bounds {users : List PlexUserAccess} {q : String} {limit : Nat}
    {r : FuseResult} (h : r ∈ fuseSearch users q limit) : 0 ≤ r.score ∧ r.score ≤ 1 := by
  have h1 : r ∈ (users.filterMap (fun u => (fuseScoreUser q u).map
      (fun sd => FuseResult.mk u sd.1 sd.2))).insertionSort
      (fun a b => a.score ≤ b.score) :=
    (List.take_sublist _ _).subset h
  have h2 : r ∈ users.filterMap (fun u => (fuseScoreUser q u).map
      (fun sd => FuseResult.mk u sd.1 sd.2)) :=
    (List.mem_insertionSort _).mp h1
  rcases List.mem_filterMap.mp h2 with ⟨u, _, hu⟩
  cases hs : fuseScoreUser q u with
  | none => rw [hs] at hu; simp at hu
  | some sd =>
    rw [hs] at hu
    simp only [Option.map_some', Option.some.injEq] at hu
    obtain rfl := hu.symm
    exact fuseScoreUser_bounds (show fuseScoreUser q u = some (sd.1, sd.2) by rw [hs])

/-- C6: for a non-blank query over a non-empty aggregated user set,
`searchUsers` reports `totalSearched` = size of the aggregated set and
`totalMatched` = number of returned matches, returns at most
`maxResults` (default 25) matches, sorted ascending by score with every score
in `[0,1]`; and with `maxResults = 1` against 10 equally good matches it
returns exactly one match while reporting `totalSearched = 10`. -/
theorem c6_search_ranked_results :
    (∀ (getUsers : Bool → List PlexUserAccess × Nat) (query : String)
      (maxResults : Option Nat) (refresh : Bool) (users : List PlexUserAccess) (n : Nat),
      jsTrim query ≠ "" → getUsers refresh = (users, n) → users ≠ [] →
      (searchUsers getUsers query maxResults refresh).1.totalSearched = users.length ∧
      (searchUsers getUsers query maxResults refresh).1.totalMatched =
        (searchUsers getUsers query maxResults refresh).1.«matches».length ∧
      (searchUsers getUsers query maxResults refresh).1.«matches».length ≤
        maxResults.getD 25 ∧
      (searchUsers getUsers query maxResults refresh).1.«matches».Pairwise
        (fun a b => a.score ≤ b.score) ∧
      (∀ m ∈ (searchUsers getUsers query maxResults refresh).1.«matches»,
        0 ≤ m.score ∧ m.score ≤ 1)) ∧
    (searchUsers tenAliceGetUsers "alice" (some 1) false).1.«matches».length = 1 ∧
    (searchUsers tenAliceGetUsers "alice" (some 1) false).1.totalSearched = 10 ∧
    (searchUsers tenAliceGetUsers "alice" (some 1) false).1.totalMatched = 1 := by
  refine ⟨?_, by decide, by decide, by decide⟩
  intro gu q mr r users n hq hu hne
  have hlen : ¬ users.length = 0 := fun hc => hne (List.eq_nil_of_length_eq_zero hc)
  have hterm : searchUsers gu q mr r =
      ({ «matches» := (fuseSearch users (jsTrim q) (mr.getD 25)).map (fun fr =>
           { score := fr.score, user := fr.item, matchDetails := fr.details }),
         totalMatched := (fuseSearch users (jsTrim q) (mr.getD 25)).length,
         totalSearched := users.length }, n) := by
    simp [searchUsers, hq, hu, hlen]
  rw [hterm]
  refine ⟨rfl, (List.length_map _ _).symm, ?_, ?_, ?_⟩
  · simpa using fuseSearch_length_le users (jsTrim q) (mr.getD 25)
  · exact List.pairwise_map.mpr (fuseSearch_sorted users (jsTrim q) (mr.getD 25))
  · intro m hm
    rcases List.mem_map.mp hm with ⟨fr, hfr, rfl⟩
    exact fuseSearch_mem_bounds hfr

theorem c6_search_ranked_results_witness :
    (searchUsers tenAliceGetUsers "alice" (some 2) false).1.totalSearched =
      ((List.range 10).map aliceUser).length ∧
    (searchUsers tenAliceGetUsers "alice" (some 2) false).1.«matches».length ≤ 2 := by
  have h := c6_search_ranked_results.1 tenAliceGetUsers "alice" (some 2) false
    ((List.range 10).map aliceUser) 0 (by decide) rfl (by decide)
  exact ⟨h.1, h.2.2.1⟩

end Plex

